import Mathlib

/-!
Shallow embedding of the firebase REST client (firebase.go) and proofs of
the specification claims about it.

The Go package has two parts:
* the Location client `F` with methods `Value`, `Child`, `Push`, `Set`,
  `Update`, `Remove` (firebase.go lines 22-191), and
* the HTTP transport `client.Call` (firebase.go lines 194-246), which
  composes the request address from a base path, the auth token and the
  per-call params, dispatches the request, and maps the response status
  to a result.

Standard-library behaviour that the package calls into (encoding/json
marshalling, the HTTP stack) is not code of this repository; it is
abstracted as function parameters (`Codec`, `doRequest`) so that every
behaviour of those libraries is quantified over.
-/

namespace Firebase

/-- JSON-shaped dynamic data, the decoded form a Go `interface\x7b\x7d`
holds after `json.Unmarshal`. -/
inductive JSON where
  | null
  | bool (b : Bool)
  | num (n : Int)
  | str (s : String)
  | arr (elems : List JSON)
  | obj (fields : List (String × JSON))

/-- A Go `interface\x7b\x7d` value: `none` is the nil interface. -/
abbrev GoVal := Option JSON

/-- A Go `map[string]string`, modelled as an association list with the
keys understood to be distinct. -/
abbrev Params := List (String × String)

/-- First-match association-list lookup (a Go map read, before applying
the zero-value default). -/
def lookupKey : Params → String → Option String
  | [], _ => none
  | p :: rest, k => if p.1 = k then some p.2 else lookupKey rest k

/-- A Go map read `m[k]` on a `map[string]string`: missing keys yield the
zero value `""`. -/
def mapGet (m : Params) (k : String) : String :=
  (lookupKey m k).getD ""

/-- The argument tuple of one `Api.Call` invocation
(`method, path, auth, body, params`); `body = none` is a nil byte slice. -/
structure CallRec where
  method : String
  path : String
  auth : String
  body : Option String
  params : Params

/-- The `Api` interface: `Call` returns the response bytes or an error
(Go `([]byte, error)` with exactly one side meaningful). -/
abbrev Api := CallRec → Except String String

/-- The Firebase client `F` (firebase.go lines 22-36). `value = none` is
the nil interface (no cached value). -/
structure F where
  Url : String
  Auth : String
  api : Api
  value : GoVal

/-- Abstraction of the `encoding/json` standard library as used by the
package: `marshal` is `json.Marshal` on an `interface\x7b\x7d`,
`unmarshal` is `json.Unmarshal` into a `*interface\x7b\x7d`, and
`unmarshalStringMap` is `json.Unmarshal` into a `*map[string]string`
(it succeeds only on JSON that fits a map of strings). Errors carry the
message of the returned Go error. -/
structure Codec where
  marshal : GoVal → Except String String
  unmarshal : String → Except String GoVal
  unmarshalStringMap : String → Except String Params

/-- Result of one method call in the embedding: the Go return value,
the receiver's state after the call (Go methods on `*F` may assign to
the receiver's fields), and the list of `Api.Call` invocations the
method performed, in order. -/
structure Eff (α : Type) where
  result : α
  post : F
  trace : List CallRec

/-! ## The HTTP transport (`client.Call`, firebase.go lines 193-246) -/

/-- `suffix` (firebase.go line 42). -/
def suffix : String := ".json"

/-- `strings.HasSuffix(path, "/")` followed by `path += "/"` when false
(firebase.go lines 195-197). A string ends in the one-byte suffix `"/"`
exactly when its last character is `/`. -/
def addSlash (p : String) : String :=
  if p.data.getLast? = some '/' then p else p ++ "/"

/-- `url.Values.Set(k, v)`: replace any binding of `k` with the single
value `v`. The representation keeps insertion order; `encodeQuery`
sorts, as Go's `Encode` does. -/
def valuesSet (qs : Params) (k v : String) : Params :=
  qs.filter (fun p => p.1 ≠ k) ++ [(k, v)]

/-- One step of the `for k, v := range params` loop
(firebase.go lines 209-211). -/
def setParam (acc : Params) (kv : String × String) : Params :=
  valuesSet acc kv.1 kv.2

/-- The query values `client.Call` builds (firebase.go lines 200-211):
the default `auth` binding when the token is non-empty, then every
per-call param laid over it. -/
def mergeParams (auth : String) (params : Params) : Params :=
  params.foldl setParam (if auth.length > 0 then valuesSet [] "auth" auth else [])

/-- Characters `url.QueryEscape` leaves unescaped (alphanumerics and
`-_.~`). -/
def isUnreserved (c : Char) : Bool :=
  c.isAlphanum || c = '-' || c = '_' || c = '.' || c = '~'

/-- Upper-case hexadecimal digit. -/
def hexDigitChar (n : Nat) : Char :=
  if n < 10 then Char.ofNat (48 + n) else Char.ofNat (55 + n)

/-- `url.QueryEscape` on one UTF-8 byte: space becomes `+`, unreserved
ASCII stays, everything else becomes `%XX`. -/
def escapeByte (n : Nat) : String :=
  if n = 32 then "+"
  else if n < 128 && isUnreserved (Char.ofNat n) then String.singleton (Char.ofNat n)
  else "%" ++ String.singleton (hexDigitChar (n / 16)) ++ String.singleton (hexDigitChar (n % 16))

/-- `url.QueryEscape`: escape each UTF-8 byte of the string. -/
def queryEscape (s : String) : String :=
  String.join ((s.toUTF8.toList.map (fun b => escapeByte b.toNat)))

/-- Insert a pair into a key-sorted list. -/
def insertSorted (p : String × String) : Params → Params
  | [] => [p]
  | q :: rest => if p.1 ≤ q.1 then p :: q :: rest else q :: insertSorted p rest

/-- Sort an association list by key (Go's `Encode` sorts the map keys
with `sort.Strings`). -/
def sortByKey : Params → Params
  | [] => []
  | p :: rest => insertSorted p (sortByKey rest)

/-- Join strings with `&` between them, as the buffer in
`url.Values.Encode` does. -/
def joinAmp : List String → String
  | [] => ""
  | [x] => x
  | x :: xs => x ++ "&" ++ joinAmp xs

/-- `url.Values.Encode`: sorted `k=v` pairs, query-escaped, joined by
`&`. -/
def encodeQuery (qs : Params) : String :=
  joinAmp ((sortByKey qs).map (fun kv => queryEscape kv.1 ++ "=" ++ queryEscape kv.2))

/-- The full request address `client.Call` composes
(firebase.go lines 195-215): normalised path, the fixed `.json` suffix,
then `?` and the encoded query when any values exist. -/
def composeAddress (path auth : String) (params : Params) : String :=
  let p := addSlash path ++ suffix
  let qs := mergeParams auth params
  if qs.length > 0 then p ++ "?" ++ encodeQuery qs else p

/-- One HTTP response as `client.Call` sees it after reading the whole
body (firebase.go lines 226-237). -/
structure HttpResponse where
  statusCode : Nat
  body : String

/-- `client.Call` (firebase.go lines 194-246). `doRequest` abstracts
`http.NewRequest` + `httpClient.Do` + `ioutil.ReadAll`: it receives the
method, the composed address and the body, and yields the response or
the error of whichever of those steps failed (propagated verbatim by
the Go code). A status of 400 or more becomes an error carrying the raw
body text; otherwise the raw body bytes are returned. -/
def client.Call (doRequest : String → String → Option String → Except String HttpResponse)
    (method path auth : String) (body : Option String) (params : Params) :
    Except String String :=
  let addr := composeAddress path auth params
  match doRequest method addr body with
  | .error e => .error e
  | .ok res => if res.statusCode ≥ 400 then .error res.body else .ok res.body

/-- The `Api` implemented by the concrete transport: each `Call`
invocation goes through `client.Call`. -/
def httpApi (doRequest : String → String → Option String → Except String HttpResponse) : Api :=
  fun r => client.Call doRequest r.method r.path r.auth r.body r.params

/-- Turn a Go `(_, error)` return into just the error
(`some` = non-nil error). -/
def errOf : Except String String → Option String
  | .error e => some e
  | .ok _ => none

/-! ## The Location client `F` (firebase.go lines 47-191) -/

/-- `F.Init` (firebase.go lines 49-57): sets api (defaulting to the
concrete transport when nil), Url and Auth; the cached value field is
untouched. -/
def F.Init (f : F) (root auth : String) (api : Option Api) (defaultApi : Api) : F :=
  { f with Url := root, Auth := auth, api := api.getD defaultApi }

/-- `F.Child` (firebase.go lines 76-97): one GET at `Url ++ "/" ++ path`;
nil on a transport error, nil on an unmarshal error, otherwise a new
location carrying the decoded value. The argument `v` is the caller's
out-shape `interface\x7b\x7d`; unmarshalling into a `*interface\x7b\x7d`
replaces it wholesale, so only the decoded result reaches the new
location. The receiver is never written. -/
def F.Child (c : Codec) (f : F) (path : String) (params : Params) (v : GoVal) :
    Eff (Option F) :=
  let u := f.Url ++ "/" ++ path
  let rec0 : CallRec := ⟨"GET", u, f.Auth, none, params⟩
  match f.api rec0 with
  | .error _ => { result := none, post := f, trace := [rec0] }
  | .ok res =>
    match c.unmarshal res with
    | .error _ => { result := none, post := f, trace := [rec0] }
    | .ok v2 =>
      let _ := v
      { result := some { Url := u, Auth := f.Auth, api := f.api, value := v2 },
        post := f, trace := [rec0] }

/-- `F.Value` (firebase.go lines 60-72). When the cached value is nil it
calls `Child("", nil, v)` and rebinds the LOCAL pointer variable `f` to
the result; the receiver object is never assigned to. It then returns
nil when that result is nil, else the value held by whichever location
the local `f` points at. -/
def F.Value (c : Codec) (f : F) : Eff GoVal :=
  if f.value.isNone then
    let ch := F.Child c f "" [] none
    match ch.result with
    | none => { result := none, post := f, trace := ch.trace }
    | some g => { result := g.value, post := f, trace := ch.trace }
  else
    { result := f.value, post := f, trace := [] }

/-- `F.Push` (firebase.go lines 101-128): marshal the value, POST it to
`Url`, unmarshal the response into a `map[string]string`, and return a
new location at `Url ++ "/" ++ r["name"]` caching the pushed value.
Each failure returns `(nil, err)` with the error propagated. The Go
return pair `(*F, error)` is the `result` component. -/
def F.Push (c : Codec) (f : F) (value : GoVal) (params : Params) :
    Eff (Option F × Option String) :=
  match c.marshal value with
  | .error e => { result := (none, some e), post := f, trace := [] }
  | .ok body =>
    let rec0 : CallRec := ⟨"POST", f.Url, f.Auth, some body, params⟩
    match f.api rec0 with
    | .error e => { result := (none, some e), post := f, trace := [rec0] }
    | .ok res =>
      match c.unmarshalStringMap res with
      | .error e => { result := (none, some e), post := f, trace := [rec0] }
      | .ok r =>
        { result := (some { Url := f.Url ++ "/" ++ mapGet r "name", Auth := f.Auth,
                            api := f.api, value := value }, none),
          post := f, trace := [rec0] }

/-- `F.Set` (firebase.go lines 132-165): marshal the value, PUT it to
`Url ++ "/" ++ path`, and return a new location at that address; when
the response body is non-empty its decoded value is cached on the new
location (an unmarshal error fails the call), otherwise the new
location has no cached value. -/
def F.Set (c : Codec) (f : F) (path : String) (value : GoVal) (params : Params) :
    Eff (Option F × Option String) :=
  let u := f.Url ++ "/" ++ path
  match c.marshal value with
  | .error e => { result := (none, some e), post := f, trace := [] }
  | .ok body =>
    let rec0 : CallRec := ⟨"PUT", u, f.Auth, some body, params⟩
    match f.api rec0 with
    | .error e => { result := (none, some e), post := f, trace := [rec0] }
    | .ok res =>
      if res.length > 0 then
        match c.unmarshal res with
        | .error e => { result := (none, some e), post := f, trace := [rec0] }
        | .ok r =>
          { result := (some { Url := u, Auth := f.Auth, api := f.api, value := r }, none),
            post := f, trace := [rec0] }
      else
        { result := (some { Url := u, Auth := f.Auth, api := f.api, value := none }, none),
          post := f, trace := [rec0] }

/-- `F.Update` (firebase.go lines 168-184): marshal the value (failure
returns before any call), PATCH to `Url ++ "/" ++ path`, then clear the
receiver's cached value whenever `len(path) == 0` — whether or not the
call returned an error — and return the call's error. -/
def F.Update (c : Codec) (f : F) (path : String) (value : GoVal) (params : Params) :
    Eff (Option String) :=
  match c.marshal value with
  | .error e => { result := some e, post := f, trace := [] }
  | .ok body =>
    let rec0 : CallRec := ⟨"PATCH", f.Url ++ "/" ++ path, f.Auth, some body, params⟩
    let err := errOf (f.api rec0)
    let f2 := if path.length = 0 then { f with value := none } else f
    { result := err, post := f2, trace := [rec0] }

/-- `F.Remove` (firebase.go lines 187-191): one DELETE at
`Url ++ "/" ++ path`; the call's error is returned unmodified. -/
def F.Remove (f : F) (path : String) (params : Params) : Eff (Option String) :=
  let rec0 : CallRec := ⟨"DELETE", f.Url ++ "/" ++ path, f.Auth, none, params⟩
  { result := errOf (f.api rec0), post := f, trace := [rec0] }

/-! ## Helper lemmas on the query-value association lists -/

theorem lookupKey_append_single (l : Params) (k v : String)
    (h : ∀ p ∈ l, p.1 ≠ k) : lookupKey (l ++ [(k, v)]) k = some v := by
  induction l with
  | nil => simp [lookupKey]
  | cons p rest ih =>
    have hp := h p (List.mem_cons_self p rest)
    simp only [List.cons_append, lookupKey, if_neg hp]
    exact ih (fun q hq => h q (List.mem_cons_of_mem p hq))

theorem lookupKey_valuesSet_self (qs : Params) (k v : String) :
    lookupKey (valuesSet qs k v) k = some v := by
  refine lookupKey_append_single _ _ _ ?_
  intro p hp
  have := List.of_mem_filter hp
  simpa using this

theorem lookupKey_valuesSet_ne (qs : Params) (k k' v' : String) (h : k ≠ k') :
    lookupKey (valuesSet qs k' v') k = lookupKey qs k := by
  induction qs with
  | nil =>
    have hne : k' ≠ k := fun hh => h hh.symm
    simp [valuesSet, lookupKey, if_neg hne]
  | cons p rest ih =>
    by_cases hp : p.1 = k'
    · have hstep : valuesSet (p :: rest) k' v' = valuesSet rest k' v' := by
        simp [valuesSet, List.filter_cons, hp]
      have hpk : p.1 ≠ k := by rw [hp]; exact fun hh => h hh.symm
      rw [hstep, ih, lookupKey, if_neg hpk]
    · have hstep : valuesSet (p :: rest) k' v' = p :: valuesSet rest k' v' := by
        simp [valuesSet, List.filter_cons, hp]
      rw [hstep]
      by_cases hpk : p.1 = k
      · simp [lookupKey, hpk]
      · simp [lookupKey, hpk, ih]

theorem lookupKey_foldl_setParam_notmem (params : Params) (qs : Params) (k : String)
    (h : k ∉ params.map Prod.fst) :
    lookupKey (params.foldl setParam qs) k = lookupKey qs k := by
  induction params generalizing qs with
  | nil => rfl
  | cons p rest ih =>
    simp only [List.map_cons, List.mem_cons, not_or] at h
    rw [List.foldl_cons, ih _ h.2, setParam, lookupKey_valuesSet_ne _ _ _ _ h.1]

theorem lookupKey_foldl_setParam_mem (params : Params) (qs : Params) (k v : String)
    (hnd : (params.map Prod.fst).Nodup) (h : (k, v) ∈ params) :
    lookupKey (params.foldl setParam qs) k = some v := by
  induction params generalizing qs with
  | nil => cases h
  | cons p rest ih =>
    simp only [List.map_cons, List.nodup_cons] at hnd
    rcases List.mem_cons.1 h with heq | htail
    · subst heq
      rw [List.foldl_cons,
        lookupKey_foldl_setParam_notmem rest _ k (by simpa using hnd.1)]
      exact lookupKey_valuesSet_self qs k v
    · exact ih _ hnd.2 htail

theorem keys_valuesSet_self (qs : Params) (k v : String) :
    k ∈ (valuesSet qs k v).map Prod.fst := by
  simp [valuesSet]

theorem keys_valuesSet_mono (qs : Params) (k k' v' : String)
    (h : k ∈ qs.map Prod.fst) : k ∈ (valuesSet qs k' v').map Prod.fst := by
  by_cases hk : k = k'
  · subst hk; exact keys_valuesSet_self qs k v'
  · obtain ⟨p, hp, hpk⟩ := List.mem_map.1 h
    refine List.mem_map.2 ⟨p, ?_, hpk⟩
    unfold valuesSet
    exact List.mem_append_left _ (List.mem_filter.2 ⟨hp, by simp [hpk, hk]⟩)

theorem keys_foldl_setParam_mono (params : Params) (qs : Params) (k : String)
    (h : k ∈ qs.map Prod.fst) :
    k ∈ (params.foldl setParam qs).map Prod.fst := by
  induction params generalizing qs with
  | nil => exact h
  | cons p rest ih => exact ih _ (keys_valuesSet_mono _ _ _ _ h)

theorem keys_foldl_setParam_of_mem (params : Params) (qs : Params) (k : String)
    (h : k ∈ params.map Prod.fst) :
    k ∈ (params.foldl setParam qs).map Prod.fst := by
  induction params generalizing qs with
  | nil => simp at h
  | cons p rest ih =>
    simp only [List.map_cons, List.mem_cons] at h
    rcases h with heq | htail
    · exact keys_foldl_setParam_mono rest _ k (heq ▸ keys_valuesSet_self qs p.1 p.2)
    · exact ih _ htail

theorem self_mem_insertSorted (p : String × String) (l : Params) :
    p ∈ insertSorted p l := by
  induction l with
  | nil => simp [insertSorted]
  | cons q rest ih =>
    unfold insertSorted
    split
    · exact List.mem_cons_self _ _
    · exact List.mem_cons_of_mem _ ih

theorem mem_insertSorted_of_mem (p q : String × String) (l : Params) (h : p ∈ l) :
    p ∈ insertSorted q l := by
  induction l with
  | nil => cases h
  | cons a rest ih =>
    unfold insertSorted
    split
    · exact List.mem_cons_of_mem _ h
    · rcases List.mem_cons.1 h with rfl | htail
      · exact List.mem_cons_self _ _
      · exact List.mem_cons_of_mem _ (ih htail)

theorem mem_sortByKey (p : String × String) (l : Params) (h : p ∈ l) :
    p ∈ sortByKey l := by
  induction l with
  | nil => cases h
  | cons a rest ih =>
    unfold sortByKey
    rcases List.mem_cons.1 h with rfl | htail
    · exact self_mem_insertSorted _ _
    · exact mem_insertSorted_of_mem _ _ _ (ih htail)

theorem joinAmp_contains (l : List String) (x : String) (h : x ∈ l) :
    ∃ s1 s2, joinAmp l = s1 ++ x ++ s2 := by
  induction l with
  | nil => cases h
  | cons a rest ih =>
    cases rest with
    | nil =>
      have hx : x = a := by simpa using h
      subst hx
      exact ⟨"", "", by simp [joinAmp]⟩
    | cons b bs =>
      rcases List.mem_cons.1 h with rfl | htail
      · exact ⟨"", "&" ++ joinAmp (b :: bs), by simp [joinAmp, String.append_assoc]⟩
      · obtain ⟨s1, s2, hs⟩ := ih htail
        exact ⟨a ++ "&" ++ s1, s2, by simp [joinAmp, hs, String.append_assoc]⟩

/-! ## Claim theorems -/

/-- C1: for every path, auth token and params map (with the distinct
keys a Go map has), the address `client.Call` composes is the
normalised base path followed by the fixed `".json"` suffix and then an
optional query part; the part before the query ends in `".json"`; the
query values contain every key of params and the encoded query string
contains every such key escaped and followed by `=`; when params is
non-empty the query part is present; and a per-call `"auth"` param
overrides the default auth token under the `"auth"` key. -/
theorem call_composes_address (path auth : String) (params : Params)
    (hnd : (params.map Prod.fst).Nodup) :
    (∃ q, composeAddress path auth params = (addSlash path ++ suffix) ++ q ∧
        (q = "" ∨ q = "?" ++ encodeQuery (mergeParams auth params))) ∧
    (∃ pre, addSlash path ++ suffix = pre ++ ".json") ∧
    (∀ k, k ∈ params.map Prod.fst → k ∈ (mergeParams auth params).map Prod.fst) ∧
    (∀ k, k ∈ params.map Prod.fst →
        ∃ s1 s2, encodeQuery (mergeParams auth params) = s1 ++ (queryEscape k ++ "=") ++ s2) ∧
    (params ≠ [] → composeAddress path auth params =
        (addSlash path ++ suffix) ++ "?" ++ encodeQuery (mergeParams auth params)) ∧
    (∀ a, ("auth", a) ∈ params → lookupKey (mergeParams auth params) "auth" = some a) := by
  refine ⟨?_, ⟨addSlash path, rfl⟩, ?_, ?_, ?_, ?_⟩
  · by_cases h : (mergeParams auth params).length > 0
    · refine ⟨"?" ++ encodeQuery (mergeParams auth params), ?_, Or.inr rfl⟩
      simp only [composeAddress, if_pos h, String.append_assoc]
    · refine ⟨"", ?_, Or.inl rfl⟩
      simp only [composeAddress, if_neg h, String.append_empty]
  · intro k hk
    exact keys_foldl_setParam_of_mem params _ k hk
  · intro k hk
    obtain ⟨p, hp, hpk⟩ := List.mem_map.1 (keys_foldl_setParam_of_mem params _ k hk)
    have hmem : queryEscape p.1 ++ "=" ++ queryEscape p.2 ∈
        (sortByKey (mergeParams auth params)).map
          (fun kv => queryEscape kv.1 ++ "=" ++ queryEscape kv.2) :=
      List.mem_map.2 ⟨p, mem_sortByKey p _ hp, rfl⟩
    obtain ⟨s1, s2, hs⟩ := joinAmp_contains _ _ hmem
    refine ⟨s1, queryEscape p.2 ++ s2, ?_⟩
    rw [encodeQuery, hs, hpk]
    simp [String.append_assoc]
  · intro hne
    cases params with
    | nil => exact absurd rfl hne
    | cons p rest =>
      have hk : p.1 ∈ (mergeParams auth (p :: rest)).map Prod.fst :=
        keys_foldl_setParam_of_mem (p :: rest) _ p.1 (by simp)
      have hlen : (mergeParams auth (p :: rest)).length > 0 := by
        cases hmp : mergeParams auth (p :: rest) with
        | nil => rw [hmp] at hk; cases hk
        | cons q qs => simp
      simp only [composeAddress, if_pos hlen]
  · intro a ha
    exact lookupKey_foldl_setParam_mem params _ "auth" a hnd ha

theorem call_composes_address_witness :
    ((([("auth", "tok2"), ("shallow", "true")] : Params).map Prod.fst).Nodup) ∧
    lookupKey (mergeParams "tok" [("auth", "tok2"), ("shallow", "true")]) "auth" = some "tok2" ∧
    "shallow" ∈ (mergeParams "tok" [("auth", "tok2"), ("shallow", "true")]).map Prod.fst :=
  ⟨by decide,
   (call_composes_address "base/kid" "tok" [("auth", "tok2"), ("shallow", "true")]
      (by decide)).2.2.2.2.2 "tok2" (by decide),
   (call_composes_address "base/kid" "tok" [("auth", "tok2"), ("shallow", "true")]
      (by decide)).2.2.1 "shallow" (by decide)⟩

/-- C7: for every HTTP response `client.Call` receives, a status code
of 400 or more yields an error whose message is exactly the raw
response body, and a status below 400 yields the raw body with no
error. -/
theorem call_status_to_result
    (doRequest : String → String → Option String → Except String HttpResponse)
    (method path auth : String) (body : Option String) (params : Params) (res : HttpResponse)
    (h : doRequest method (composeAddress path auth params) body = .ok res) :
    (res.statusCode ≥ 400 → client.Call doRequest method path auth body params = .error res.body) ∧
    (res.statusCode < 400 → client.Call doRequest method path auth body params = .ok res.body) := by
  constructor
  · intro hs
    simp [client.Call, h, if_pos hs]
  · intro hs
    simp [client.Call, h, if_neg (Nat.not_le.2 hs)]

def doReq500 : String → String → Option String → Except String HttpResponse :=
  fun _ _ _ => .ok ⟨500, "oops"⟩

def doReq200 : String → String → Option String → Except String HttpResponse :=
  fun _ _ _ => .ok ⟨200, "fine"⟩

theorem call_status_to_result_witness :
    client.Call doReq500 "GET" "b" "" none [] = .error "oops" ∧
    client.Call doReq200 "GET" "b" "" none [] = .ok "fine" :=
  ⟨(call_status_to_result doReq500 "GET" "b" "" none [] ⟨500, "oops"⟩ rfl).1 (by decide),
   (call_status_to_result doReq200 "GET" "b" "" none [] ⟨200, "fine"⟩ rfl).2 (by decide)⟩

/-! ## Structural lemmas about the client methods -/

theorem child_post (c : Codec) (f : F) (path : String) (params : Params) (v : GoVal) :
    (F.Child c f path params v).post = f := by
  simp only [F.Child]
  split
  · rfl
  · split <;> rfl

theorem child_trace (c : Codec) (f : F) (path : String) (params : Params) (v : GoVal) :
    (F.Child c f path params v).trace =
      [⟨"GET", f.Url ++ "/" ++ path, f.Auth, none, params⟩] := by
  simp only [F.Child]
  split
  · rfl
  · split <;> rfl

theorem push_post (c : Codec) (f : F) (v : GoVal) (params : Params) :
    (F.Push c f v params).post = f := by
  simp only [F.Push]
  split
  · rfl
  · split
    · rfl
    · split <;> rfl

theorem set_post (c : Codec) (f : F) (path : String) (v : GoVal) (params : Params) :
    (F.Set c f path v params).post = f := by
  simp only [F.Set]
  split
  · rfl
  · split
    · rfl
    · split
      · split <;> rfl
      · rfl

/-! ## Test fixtures used by witnesses and counterexamples -/

/-- A transport double whose every call succeeds with body `"42"`. -/
def api42 : Api := fun _ => .ok "42"

/-- A transport double whose every call fails with message `"boom"`. -/
def apiBoom : Api := fun _ => .error "boom"

/-- A transport double whose every call succeeds with an empty body. -/
def apiEmpty : Api := fun _ => .ok ""

/-- A codec double: marshalling always succeeds with `"body42"`,
unmarshalling accepts exactly the body `"42"` (as the number 42), and
the string-map decoder always yields a map with a `"name"` key. -/
def codec42 : Codec :=
  { marshal := fun _ => .ok "body42",
    unmarshal := fun s => if s = "42" then .ok (some (.num 42)) else .error "bad",
    unmarshalStringMap := fun _ => .ok [("name", "key1")] }

def f0 : F := { Url := "http://x", Auth := "tok", api := api42, value := none }

def fCached : F := { Url := "http://x", Auth := "tok", api := api42, value := some (.str "c") }

def fCachedBoom : F := { Url := "u", Auth := "", api := apiBoom, value := some (.str "cached") }

def fEmptyBody : F := { Url := "b", Auth := "", api := apiEmpty, value := none }

/-- C8: Remove issues exactly one call, a DELETE addressed at
`Url ++ "/" ++ path`, returns the transport error unmodified (`errOf`
keeps a non-nil error as is and a success as nil), and leaves the
receiver unchanged; it returns no new location. -/
theorem remove_single_delete (f : F) (path : String) (params : Params) :
    (F.Remove f path params).trace =
      [⟨"DELETE", f.Url ++ "/" ++ path, f.Auth, none, params⟩] ∧
    (F.Remove f path params).result =
      errOf (f.api ⟨"DELETE", f.Url ++ "/" ++ path, f.Auth, none, params⟩) ∧
    (F.Remove f path params).post = f :=
  ⟨rfl, rfl, rfl⟩

/-- C9: Child, Push, Set and Remove leave the receiver unchanged (every
field), and every location returned by Child, Push or Set carries the
receiver's Auth token and transport unchanged. -/
theorem operations_preserve_receiver_and_context (c : Codec) (f : F) (path : String)
    (v val : GoVal) (params : Params) :
    (F.Child c f path params v).post = f ∧
    (F.Push c f val params).post = f ∧
    (F.Set c f path val params).post = f ∧
    (F.Remove f path params).post = f ∧
    (∀ g, (F.Child c f path params v).result = some g → g.Auth = f.Auth ∧ g.api = f.api) ∧
    (∀ g e, (F.Push c f val params).result = (some g, e) → g.Auth = f.Auth ∧ g.api = f.api) ∧
    (∀ g e, (F.Set c f path val params).result = (some g, e) → g.Auth = f.Auth ∧ g.api = f.api) := by
  refine ⟨child_post c f path params v, push_post c f val params, set_post c f path val params,
    rfl, ?_, ?_, ?_⟩
  · intro g hg
    simp only [F.Child] at hg
    split at hg
    · simp at hg
    · split at hg
      · simp at hg
      · simp only [Eff.mk.injEq] at hg
        cases hg
        exact ⟨rfl, rfl⟩
  · intro g e hg
    simp only [F.Push] at hg
    split at hg
    · simp at hg
    · split at hg
      · simp at hg
      · split at hg
        · simp at hg
        · simp only [Prod.mk.injEq] at hg
          obtain ⟨hg1, _⟩ := hg
          cases hg1
          exact ⟨rfl, rfl⟩
  · intro g e hg
    simp only [F.Set] at hg
    split at hg
    · simp at hg
    · split at hg
      · simp at hg
      · split at hg
        · split at hg
          · simp at hg
          · simp only [Prod.mk.injEq] at hg
            obtain ⟨hg1, _⟩ := hg
            cases hg1
            exact ⟨rfl, rfl⟩
        · simp only [Prod.mk.injEq] at hg
          obtain ⟨hg1, _⟩ := hg
          cases hg1
          exact ⟨rfl, rfl⟩

theorem operations_preserve_receiver_and_context_witness :
    (F.Child codec42 f0 "p" [] none).post = f0 ∧
    (F.Remove f0 "p" []).post = f0 ∧
    ({ Url := "http://x" ++ "/" ++ "p", Auth := "tok", api := api42,
       value := some (.num 42) } : F).Auth = f0.Auth := by
  refine ⟨(operations_preserve_receiver_and_context codec42 f0 "p" none none []).1,
    (operations_preserve_receiver_and_context codec42 f0 "p" none none []).2.2.2.1, ?_⟩
  exact ((operations_preserve_receiver_and_context codec42 f0 "p" none none []).2.2.2.2.1
    _ rfl).1

/-- C4: Child returns nil, keeping no error detail, both when the
transport call fails and when unmarshalling the response fails; in
particular against the concrete HTTP transport fed a 404 response with
body `"null"`, Child returns nil instead of the error. -/
theorem child_collapses_failures (c : Codec) (f : F) (path : String) (params : Params)
    (v : GoVal) :
    (∀ e, f.api ⟨"GET", f.Url ++ "/" ++ path, f.Auth, none, params⟩ = .error e →
        (F.Child c f path params v).result = none) ∧
    (∀ res e, f.api ⟨"GET", f.Url ++ "/" ++ path, f.Auth, none, params⟩ = .ok res →
        c.unmarshal res = .error e → (F.Child c f path params v).result = none) ∧
    (∀ doRequest, f.api = httpApi doRequest →
        doRequest "GET" (composeAddress (f.Url ++ "/" ++ path) f.Auth params) none =
          .ok ⟨404, "null"⟩ →
        (F.Child c f path params v).result = none) := by
  refine ⟨?_, ?_, ?_⟩
  · intro e he
    simp [F.Child, he]
  · intro res e hres hu
    simp [F.Child, hres, hu]
  · intro dr hapi hdr
    have h404 : f.api ⟨"GET", f.Url ++ "/" ++ path, f.Auth, none, params⟩ = .error "null" := by
      rw [hapi]
      simp [httpApi, client.Call, hdr]
    simp [F.Child, h404]

def doReq404 : String → String → Option String → Except String HttpResponse :=
  fun _ _ _ => .ok ⟨404, "null"⟩

def f404 : F := { Url := "http://base", Auth := "t", api := httpApi doReq404, value := none }

theorem child_collapses_failures_witness :
    (F.Child codec42 f404 "kid" [] none).result = none :=
  (child_collapses_failures codec42 f404 "kid" [] none).2.2 doReq404 rfl rfl

/-- C5: Push marshals the value, POSTs to the base address, reads the
generated key from the `"name"` field of the decoded string map, and on
success returns a location at `Url ++ "/" ++ key` caching the pushed
value; every failure (marshal, transport, unmarshal) returns nil plus
the propagated error, and a populated location never comes with an
error. (A marshal failure returns before any transport call.) -/
theorem push_contract (c : Codec) (f : F) (v : GoVal) (params : Params) :
    (∀ e, c.marshal v = .error e →
        (F.Push c f v params).result = (none, some e) ∧ (F.Push c f v params).trace = []) ∧
    (∀ body e, c.marshal v = .ok body →
        f.api ⟨"POST", f.Url, f.Auth, some body, params⟩ = .error e →
        (F.Push c f v params).result = (none, some e)) ∧
    (∀ body res e, c.marshal v = .ok body →
        f.api ⟨"POST", f.Url, f.Auth, some body, params⟩ = .ok res →
        c.unmarshalStringMap res = .error e →
        (F.Push c f v params).result = (none, some e)) ∧
    (∀ body res r, c.marshal v = .ok body →
        f.api ⟨"POST", f.Url, f.Auth, some body, params⟩ = .ok res →
        c.unmarshalStringMap res = .ok r →
        (F.Push c f v params).result =
          (some { Url := f.Url ++ "/" ++ mapGet r "name", Auth := f.Auth,
                  api := f.api, value := v }, none) ∧
        (F.Push c f v params).trace = [⟨"POST", f.Url, f.Auth, some body, params⟩]) ∧
    (∀ g e, (F.Push c f v params).result = (some g, e) → e = none) := by
  refine ⟨?_, ?_, ?_, ?_, ?_⟩
  · intro e hm
    constructor <;> simp [F.Push, hm]
  · intro body e hm ha
    simp [F.Push, hm, ha]
  · intro body res e hm ha hsm
    simp [F.Push, hm, ha, hsm]
  · intro body res r hm ha hsm
    constructor <;> simp [F.Push, hm, ha, hsm]
  · intro g e hg
    simp only [F.Push] at hg
    split at hg
    · simp at hg
    · split at hg
      · simp at hg
      · split at hg
        · simp at hg
        · simp only [Prod.mk.injEq] at hg
          exact hg.2.symm

theorem push_contract_witness :
    (F.Push codec42 f0 (some (.str "v")) []).result =
      (some { Url := "http://x" ++ "/" ++ "key1", Auth := "tok", api := api42,
              value := some (.str "v") }, none) ∧
    (F.Push codec42 fCachedBoom (some (.str "v")) []).result = (none, some "boom") :=
  ⟨((push_contract codec42 f0 (some (.str "v")) []).2.2.2.1 "body42" "42"
      [("name", "key1")] rfl rfl rfl).1,
   (push_contract codec42 fCachedBoom (some (.str "v")) []).2.1 "body42" "boom" rfl rfl⟩

/-- C10: when Push's transport call succeeds and the response decodes
as a string map with no `"name"` key, Push reports no error and returns
a location addressed at `Url ++ "/"` (the Go map read of a missing key
yields the zero value `""`, appended to the address). -/
theorem push_missing_name_key (c : Codec) (f : F) (v : GoVal) (params : Params)
    (body res : String) (m : Params)
    (hm : c.marshal v = .ok body)
    (ha : f.api ⟨"POST", f.Url, f.Auth, some body, params⟩ = .ok res)
    (hsm : c.unmarshalStringMap res = .ok m)
    (hname : lookupKey m "name" = none) :
    (F.Push c f v params).result =
      (some { Url := f.Url ++ "/", Auth := f.Auth, api := f.api, value := v }, none) := by
  simp [F.Push, hm, ha, hsm, mapGet, hname, String.append_empty]

/-- A codec double whose string-map decoder yields a map without a
`"name"` key. -/
def codecNoName : Codec :=
  { marshal := fun _ => .ok "b",
    unmarshal := fun _ => .error "bad",
    unmarshalStringMap := fun _ => .ok [("other", "z")] }

def fNoName : F := { Url := "base", Auth := "", api := api42, value := none }

theorem push_missing_name_key_witness :
    (F.Push codecNoName fNoName none []).result =
      (some { Url := "base" ++ "/", Auth := "", api := api42, value := none }, none) :=
  push_missing_name_key codecNoName fNoName none [] "b" "42" [("other", "z")] rfl rfl rfl rfl

/-- C6: Set marshals the value, PUTs it to `Url ++ "/" ++ path`, and on
success returns a location at that address caching the decoded response
body when it is non-empty and nothing when it is empty; marshal,
transport and unmarshal failures return nil plus the propagated
error. -/
theorem set_contract (c : Codec) (f : F) (path : String) (v : GoVal) (params : Params) :
    (∀ e, c.marshal v = .error e →
        (F.Set c f path v params).result = (none, some e) ∧ (F.Set c f path v params).trace = []) ∧
    (∀ body e, c.marshal v = .ok body →
        f.api ⟨"PUT", f.Url ++ "/" ++ path, f.Auth, some body, params⟩ = .error e →
        (F.Set c f path v params).result = (none, some e)) ∧
    (∀ body res, c.marshal v = .ok body →
        f.api ⟨"PUT", f.Url ++ "/" ++ path, f.Auth, some body, params⟩ = .ok res →
        res.length = 0 →
        (F.Set c f path v params).result =
          (some { Url := f.Url ++ "/" ++ path, Auth := f.Auth, api := f.api,
                  value := none }, none)) ∧
    (∀ body res r, c.marshal v = .ok body →
        f.api ⟨"PUT", f.Url ++ "/" ++ path, f.Auth, some body, params⟩ = .ok res →
        res.length > 0 → c.unmarshal res = .ok r →
        (F.Set c f path v params).result =
          (some { Url := f.Url ++ "/" ++ path, Auth := f.Auth, api := f.api,
                  value := r }, none)) ∧
    (∀ body res e, c.marshal v = .ok body →
        f.api ⟨"PUT", f.Url ++ "/" ++ path, f.Auth, some body, params⟩ = .ok res →
        res.length > 0 → c.unmarshal res = .error e →
        (F.Set c f path v params).result = (none, some e)) := by
  refine ⟨?_, ?_, ?_, ?_, ?_⟩
  · intro e hm
    constructor <;> simp [F.Set, hm]
  · intro body e hm ha
    simp [F.Set, hm, ha]
  · intro body res hm ha hlen
    simp [F.Set, hm, ha, hlen]
  · intro body res r hm ha hlen hu
    simp [F.Set, hm, ha, hlen, hu]
  · intro body res e hm ha hlen hu
    simp [F.Set, hm, ha, hlen, hu]

theorem set_contract_witness :
    (F.Set codec42 f0 "p" (some (.bool true)) []).result =
      (some { Url := "http://x" ++ "/" ++ "p", Auth := "tok", api := api42,
              value := some (.num 42) }, none) ∧
    (F.Set codec42 fEmptyBody "q" none []).result =
      (some { Url := "b" ++ "/" ++ "q", Auth := "", api := apiEmpty,
              value := none }, none) :=
  ⟨(set_contract codec42 f0 "p" (some (.bool true)) []).2.2.2.1 "body42" "42"
      (some (.num 42)) rfl rfl (by decide) rfl,
   (set_contract codec42 fEmptyBody "q" none []).2.2.1 "body42" "" rfl rfl rfl⟩

/-- C2 counterexample: on a location with no cached value, Value()
fetches the value and returns it, yet the receiver's cachedValue is
still nil afterwards — Value() does not populate the receiver (the Go
code rebinds a local pointer, `f = f.Child(...)`, and never assigns to
the receiver). -/
theorem value_mutation_cex :
    f0.value = none ∧
    (F.Value codec42 f0).result = some (.num 42) ∧
    (F.Value codec42 f0).post.value = none :=
  ⟨rfl, rfl, rfl⟩

/-- C2 (amended): on a location with no cached value, Value() performs
one GET of the current address (empty child path) and returns the
fetched value — nil when the transport call or unmarshalling fails —
while leaving the receiver unchanged; when a cached value is present,
Value() returns it with no transport call. -/
theorem value_reads_through_without_mutation (c : Codec) (f : F) :
    (f.value = none →
      (F.Value c f).trace = [⟨"GET", f.Url ++ "/", f.Auth, none, []⟩] ∧
      (F.Value c f).post = f ∧
      (∀ e, f.api ⟨"GET", f.Url ++ "/", f.Auth, none, []⟩ = .error e →
          (F.Value c f).result = none) ∧
      (∀ res e, f.api ⟨"GET", f.Url ++ "/", f.Auth, none, []⟩ = .ok res →
          c.unmarshal res = .error e → (F.Value c f).result = none) ∧
      (∀ res v2, f.api ⟨"GET", f.Url ++ "/", f.Auth, none, []⟩ = .ok res →
          c.unmarshal res = .ok v2 → (F.Value c f).result = v2)) ∧
    (∀ w, f.value = some w →
      (F.Value c f).result = some w ∧ (F.Value c f).trace = [] ∧ (F.Value c f).post = f) := by
  constructor
  · intro h
    have hu : f.Url ++ "/" ++ "" = f.Url ++ "/" := String.append_empty _
    have htr := child_trace c f "" [] none
    rw [hu] at htr
    refine ⟨?_, ?_, ?_, ?_, ?_⟩
    · simp only [F.Value, h, Option.isNone_none, if_true]
      split <;> exact htr
    · simp only [F.Value, h, Option.isNone_none, if_true]
      split <;> rfl
    · intro e he
      have hch : (F.Child c f "" [] none).result = none := by
        simp only [F.Child, hu]
        simp [he]
      simp [F.Value, h, hch]
    · intro res e hres hue
      have hch : (F.Child c f "" [] none).result = none := by
        simp only [F.Child, hu]
        simp [hres, hue]
      simp [F.Value, h, hch]
    · intro res v2 hres hok
      have hch : (F.Child c f "" [] none).result =
          some { Url := f.Url ++ "/" ++ "", Auth := f.Auth, api := f.api, value := v2 } := by
        simp only [F.Child, hu]
        simp [hres, hok]
      simp [F.Value, h, hch]
  · intro w hw
    refine ⟨?_, ?_, ?_⟩ <;> simp [F.Value, hw]

theorem value_reads_through_without_mutation_witness :
    (F.Value codec42 f0).result = some (.num 42) ∧
    (F.Value codec42 f0).post = f0 ∧
    (F.Value codec42 fCached).result = some (.str "c") ∧
    (F.Value codec42 fCached).trace = [] :=
  ⟨((value_reads_through_without_mutation codec42 f0).1 rfl).2.2.2.2 "42"
      (some (.num 42)) rfl rfl,
   ((value_reads_through_without_mutation codec42 f0).1 rfl).2.1,
   ((value_reads_through_without_mutation codec42 fCached).2 (.str "c") rfl).1,
   ((value_reads_through_without_mutation codec42 fCached).2 (.str "c") rfl).2.1⟩

/-- C3 counterexample: with a transport that fails, Update("") still
clears the receiver's cached value — the update fails and the
receiver's state changes anyway. -/
theorem update_atomicity_cex :
    fCachedBoom.value = some (.str "cached") ∧
    (F.Update codec42 fCachedBoom "" none []).result = some "boom" ∧
    (F.Update codec42 fCachedBoom "" none []).post.value = none :=
  ⟨rfl, rfl, rfl⟩

/-- C3 (amended): once the value marshals, Update issues one PATCH at
`Url ++ "/" ++ path`, returns the transport's error unmodified, and
clears the receiver's cachedValue exactly when the path is empty —
whether or not the call succeeded; with a non-empty path the cached
value is unchanged. A marshal failure returns its error before any
call, leaving the receiver unchanged. -/
theorem update_clears_cache_iff_root (c : Codec) (f : F) (path : String) (v : GoVal)
    (params : Params) :
    (∀ e, c.marshal v = .error e →
        (F.Update c f path v params).result = some e ∧
        (F.Update c f path v params).post = f ∧
        (F.Update c f path v params).trace = []) ∧
    (∀ body, c.marshal v = .ok body →
        (F.Update c f path v params).trace =
          [⟨"PATCH", f.Url ++ "/" ++ path, f.Auth, some body, params⟩] ∧
        (F.Update c f path v params).result =
          errOf (f.api ⟨"PATCH", f.Url ++ "/" ++ path, f.Auth, some body, params⟩) ∧
        (F.Update c f path v params).post.value =
          (if path.length = 0 then none else f.value) ∧
        (F.Update c f path v params).post.Url = f.Url ∧
        (F.Update c f path v params).post.Auth = f.Auth ∧
        (F.Update c f path v params).post.api = f.api) := by
  constructor
  · intro e hm
    refine ⟨?_, ?_, ?_⟩ <;> simp [F.Update, hm]
  · intro body hm
    refine ⟨?_, ?_, ?_, ?_, ?_, ?_⟩
    all_goals simp only [F.Update, hm]
    all_goals split <;> rfl

theorem update_clears_cache_iff_root_witness :
    (F.Update codec42 fCachedBoom "" none []).post.value = none ∧
    (F.Update codec42 fCachedBoom "q" none []).post.value = some (.str "cached") ∧
    (F.Update codec42 fCachedBoom "q" none []).result = some "boom" :=
  ⟨(((update_clears_cache_iff_root codec42 fCachedBoom "" none []).2 "body42"
      rfl).2.2.1).trans rfl,
   (((update_clears_cache_iff_root codec42 fCachedBoom "q" none []).2 "body42"
      rfl).2.2.1).trans rfl,
   ((update_clears_cache_iff_root codec42 fCachedBoom "q" none []).2 "body42" rfl).2.1⟩

end Firebase
